import Mathlib

/-!
Verification development for the Micro-service-manager repository.

The development shallowly embeds the parts of the code the claims are
about:

* the Service contract (class Service in src/unnamed/part_000) and the
  legacy MicroService class (src/src/MicroService.ts): status machine,
  uptime and downtime accounting;
* the runner message handler (src/src/service-runner.js);
* the supervisor registry and its operations
  (src/src/MicroServiceManager.ts): load, start, stop, remove, the
  register-message re-keying, and the child exit listener;
* the request correlator of getServiceStatus and the statusResponse
  handler.

Wall-clock instants are modelled as Int milliseconds.  The overridable
start and stop hooks are modelled by an Except value giving the outcome
of the awaited call, mirroring the try and catch blocks in the source.
-/

namespace MSM

/-- The ServiceStatus enum shared by src/unnamed/part_000 (class Service)
and src/src/MicroService.ts. -/
inductive ServiceStatus where
  | starting
  | running
  | stopping
  | stopped
  | failedToStart
  | failedToStop
deriving DecidableEq

/-- The mutable fields of one Service instance (part_000 lines 13-18).
Dates are Int milliseconds; timeHistory keeps completed (start, stop)
intervals in push order. -/
structure ServiceState where
  name : String
  status : ServiceStatus
  createdAt : Int
  startTime : Option Int
  timeHistory : List (Int × Int)
deriving DecidableEq

/-- The constructor (part_000 lines 24-26): a fresh instance is stopped,
has no startTime, no history, and createdAt set to the current instant. -/
def Service.mk0 (name : String) (now : Int) : ServiceState :=
  { name := name, status := .stopped, createdAt := now,
    startTime := none, timeHistory := [] }

/-- The accumulation loop of getTotalUptime: sum of stop minus start over
the recorded intervals. -/
def sumDurations : List (Int × Int) → Int
  | [] => 0
  | (a, b) :: rest => (b - a) + sumDurations rest

/-- Service.getTotalUptime (part_000 lines 47-61): the history sum, plus
now minus startTime when the status is RUNNING and startTime is non-null
(a Date is always truthy in the source condition). -/
def getTotalUptime (s : ServiceState) (now : Int) : Int :=
  let base := sumDurations s.timeHistory
  match s.startTime with
  | some t => if s.status = .running then base + (now - t) else base
  | none => base

/-- Service.getTotalTime (part_000 lines 79-81): now minus createdAt. -/
def getTotalTime (s : ServiceState) (now : Int) : Int :=
  now - s.createdAt

/-- Service.getDowntime (part_000 lines 67-73): total time since creation
minus getTotalUptime, all read at the instant now. -/
def getDowntime (s : ServiceState) (now : Int) : Int :=
  getTotalTime s now - getTotalUptime s now

/-- Models the TS non-null assertion this.startTime! used on part_000
line 148: reads the value when present (the default is never reached on
reachable states, see claim C10). -/
def startTimeBang (t : Option Int) : Int := t.getD 0

/-- Service.startService (part_000 lines 95-119) as one atomic call.
Returns the new state together with the list of statuses passed to
setStatus during the call, in order.  A hook value of Except.error models
this.start() throwing (or the awaited promise rejecting); the catch block
converts it to FAILED_TO_START.  On success the status becomes RUNNING
and startTime is recorded. -/
def startServiceRun (s : ServiceState) (now : Int) (hook : Except String Unit) :
    ServiceState × List ServiceStatus :=
  if s.status = .running then (s, [])
  else
    match hook with
    | .error _ => ({ s with status := .failedToStart }, [.starting, .failedToStart])
    | .ok _ => ({ s with status := .running, startTime := some now },
                [.starting, .running])

/-- The state part of startServiceRun. -/
def startService (s : ServiceState) (now : Int) (hook : Except String Unit) :
    ServiceState :=
  (startServiceRun s now hook).1

/-- Service.stopService (part_000 lines 124-150) as one atomic call,
with the statuses passed to setStatus.  The guard returns unchanged
unless the status is RUNNING; a throwing hook is caught and converted to
FAILED_TO_STOP; on success the (startTime!, now) interval is pushed onto
the history and the status becomes STOPPED. -/
def stopServiceRun (s : ServiceState) (now : Int) (hook : Except String Unit) :
    ServiceState × List ServiceStatus :=
  if s.status ≠ .running then (s, [])
  else
    match hook with
    | .error _ => ({ s with status := .failedToStop }, [.stopping, .failedToStop])
    | .ok _ =>
        ({ s with status := .stopped,
                  timeHistory := s.timeHistory ++ [(startTimeBang s.startTime, now)] },
         [.stopping, .stopped])

/-- The state part of stopServiceRun. -/
def stopService (s : ServiceState) (now : Int) (hook : Except String Unit) :
    ServiceState :=
  (stopServiceRun s now hook).1

/-- States reachable from a freshly constructed Service by sequences of
startService and stopService calls, at arbitrary instants and with
arbitrary hook outcomes. -/
inductive SReachable : ServiceState → Prop where
  | init (name : String) (now : Int) : SReachable (Service.mk0 name now)
  | start {s : ServiceState} (h : SReachable s) (now : Int)
      (hook : Except String Unit) : SReachable (startService s now hook)
  | stop {s : ServiceState} (h : SReachable s) (now : Int)
      (hook : Except String Unit) : SReachable (stopService s now hook)

/-- The statuses a Service can rest in between calls: the transient
STARTING and STOPPING only occur inside a call. -/
def restingStatus : ServiceStatus → Bool
  | .starting => false
  | .stopping => false
  | _ => true

lemma sreachable_resting {s : ServiceState} (h : SReachable s) :
    restingStatus s.status = true := by
  induction h with
  | init name now => rfl
  | @start s1 h now hook ih =>
      unfold startService startServiceRun
      by_cases hr : s1.status = .running
      · simpa [hr] using ih
      · cases hook <;> simp [hr, restingStatus]
  | @stop s1 h now hook ih =>
      unfold stopService stopServiceRun
      by_cases hr : s1.status = .running
      · cases hook <;> simp [hr, restingStatus]
      · simpa [hr] using ih

/-- The transition edges named by the specification: the cycle
Stopped, Starting, Running, Stopping, Stopped plus the two failure
edges out of Starting and Stopping. -/
def legalEdge : ServiceStatus → ServiceStatus → Bool
  | .stopped, .starting => true
  | .starting, .running => true
  | .running, .stopping => true
  | .stopping, .stopped => true
  | .starting, .failedToStart => true
  | .stopping, .failedToStop => true
  | _, _ => false

/-- The edge set the code actually realises: the specified edges plus the
two retry edges out of the failure states, since startService only guards
on RUNNING and therefore restarts a failed instance. -/
def legalEdgeAmended : ServiceStatus → ServiceStatus → Bool
  | .failedToStart, .starting => true
  | .failedToStop, .starting => true
  | a, b => legalEdge a b

/-- Every consecutive pair in a status trace beginning at the given
status satisfies the edge predicate. -/
def chainOk (edge : ServiceStatus → ServiceStatus → Bool) :
    ServiceStatus → List ServiceStatus → Bool
  | _, [] => true
  | a, b :: rest => edge a b && chainOk edge b rest

/-- MicroService.getTotalUptime (src/src/MicroService.ts lines 41-50):
the legacy contract sums completed intervals only; the elapsed time of a
current run is never added.  The MicroService fields coincide with
ServiceState, and MicroService.startService and stopService (lines
86-141) perform the same state transitions as startService and
stopService above, so the states below are also MicroService states. -/
def MicroService.getTotalUptime (s : ServiceState) : Int :=
  sumDurations s.timeHistory

/-- MicroService.getDowntime (src/src/MicroService.ts lines 56-68):
recomputes the history sum inline and subtracts it from the total time
since creation. -/
def MicroService.getDowntime (s : ServiceState) (now : Int) : Int :=
  (now - s.createdAt) - sumDurations s.timeHistory

lemma sreachable_startTime {s : ServiceState} (h : SReachable s) :
    s.status = .running → ∃ t, s.startTime = some t := by
  induction h with
  | init name now => intro hr; cases hr
  | @start s1 h now hook ih =>
      unfold startService startServiceRun
      by_cases hr : s1.status = .running
      · simpa [hr] using ih
      · cases hook with
        | error e => simp [hr]
        | ok u => simp [hr]
  | @stop s1 h now hook ih =>
      unfold stopService stopServiceRun
      by_cases hr : s1.status = .running
      · cases hook with
        | error e => simp [hr]
        | ok u => simp [hr]
      · simp [hr]

lemma sreachable_status_cases {s : ServiceState} (h : SReachable s) :
    s.status = .stopped ∨ s.status = .running ∨
      s.status = .failedToStart ∨ s.status = .failedToStop := by
  have hrest := sreachable_resting h
  cases hst : s.status <;> rw [hst] at hrest <;>
    simp [restingStatus] at hrest <;> simp [hst]

/-- Claim C4 fails as stated: a Service whose start hook threw rests in
FAILED_TO_START, and a subsequent startService call transitions it to
STARTING (and on to RUNNING), an edge outside the listed legal set,
because the startService guard only checks for RUNNING. -/
theorem claim4_counterexample :
    (startService (Service.mk0 "svc" 0) 1 (.error "boom")).status
        = .failedToStart ∧
    (startServiceRun (startService (Service.mk0 "svc" 0) 1 (.error "boom")) 2
        (.ok ())).2 = [.starting, .running] ∧
    legalEdge .failedToStart .starting = false := by decide

/-- Claim C4, amended: on one Service instance, startService while
RUNNING and stopService while not RUNNING are silent no-ops leaving the
whole state (status and history included) unchanged; every status
transition follows the specified edges extended with the two retry edges
FAILED_TO_START to STARTING and FAILED_TO_STOP to STARTING. -/
theorem claim4_amended {s : ServiceState} (h : SReachable s) (now : Int)
    (hook : Except String Unit) :
    (s.status = .running → startService s now hook = s) ∧
    (s.status ≠ .running → stopService s now hook = s) ∧
    chainOk legalEdgeAmended s.status (startServiceRun s now hook).2 = true ∧
    chainOk legalEdgeAmended s.status (stopServiceRun s now hook).2 = true := by
  have h4 := sreachable_status_cases h
  refine ⟨?_, ?_, ?_, ?_⟩
  · intro hs; simp [startService, startServiceRun, hs]
  · intro hs; simp [stopService, stopServiceRun, hs]
  · rcases h4 with hst | hst | hst | hst <;> cases hook <;>
      simp [startServiceRun, hst, chainOk, legalEdgeAmended, legalEdge]
  · rcases h4 with hst | hst | hst | hst <;> cases hook <;>
      simp [stopServiceRun, hst, chainOk, legalEdgeAmended, legalEdge]

theorem claim4_witness :
    SReachable (Service.mk0 "a" 0) ∧
    (((Service.mk0 "a" 0).status = .running →
        startService (Service.mk0 "a" 0) 1 (.ok ()) = Service.mk0 "a" 0) ∧
     ((Service.mk0 "a" 0).status ≠ .running →
        stopService (Service.mk0 "a" 0) 1 (.ok ()) = Service.mk0 "a" 0) ∧
     chainOk legalEdgeAmended (Service.mk0 "a" 0).status
        (startServiceRun (Service.mk0 "a" 0) 1 (.ok ())).2 = true ∧
     chainOk legalEdgeAmended (Service.mk0 "a" 0).status
        (stopServiceRun (Service.mk0 "a" 0) 1 (.ok ())).2 = true) :=
  ⟨SReachable.init "a" 0, claim4_amended (SReachable.init "a" 0) 1 (.ok ())⟩

/-- Claim C7: a throwing start hook is caught by the catch block of
startService, which records FAILED_TO_START and leaves startTime and
the history untouched; a throwing stop hook likewise yields
FAILED_TO_STOP with the state otherwise unchanged.  Both operations are
total functions into ServiceState, so the caller observes a status and
never a propagated exception. -/
theorem claim7_hook_errors (s : ServiceState) (now : Int) (e : String) :
    (s.status ≠ .running →
       (startService s now (.error e)).status = .failedToStart ∧
       (startService s now (.error e)).timeHistory = s.timeHistory ∧
       (startService s now (.error e)).startTime = s.startTime) ∧
    (s.status = .running →
       (stopService s now (.error e)).status = .failedToStop ∧
       (stopService s now (.error e)).timeHistory = s.timeHistory ∧
       (stopService s now (.error e)).startTime = s.startTime) := by
  constructor <;> intro hs <;>
    simp [startService, startServiceRun, stopService, stopServiceRun, hs]

theorem claim7_witness :
    (startService (Service.mk0 "a" 0) 1 (.error "boom")).status
        = .failedToStart ∧
    (stopService (startService (Service.mk0 "a" 0) 1 (.ok ())) 2
        (.error "boom")).status = .failedToStop :=
  ⟨((claim7_hook_errors (Service.mk0 "a" 0) 1 "boom").1 (by decide)).1,
   ((claim7_hook_errors (startService (Service.mk0 "a" 0) 1 (.ok ())) 2
      "boom").2 (by decide)).1⟩

/-- Claim C8 fails for the legacy MicroService class: a running instance
(one startService call after construction, queried at instant 5) reports
a total uptime of 0, not the history sum plus the elapsed time since its
startTime. -/
theorem claim8_counterexample :
    (startService (Service.mk0 "m" 0) 1 (.ok ())).status = .running ∧
    MicroService.getTotalUptime (startService (Service.mk0 "m" 0) 1 (.ok ())) ≠
      sumDurations (startService (Service.mk0 "m" 0) 1 (.ok ())).timeHistory +
        (5 - startTimeBang (startService (Service.mk0 "m" 0) 1
          (.ok ())).startTime) := by decide

/-- Claim C8, amended: for the Service class of part_000 (the contract
the current runner drives), getTotalUptime at any instant equals the sum
of the completed interval durations, plus the elapsed time since the
recorded startTime exactly when the status is RUNNING; the legacy
MicroService.getTotalUptime returns the history sum only. -/
theorem claim8_amended {s : ServiceState} (h : SReachable s) (now : Int) :
    (s.status = .running → ∃ t, s.startTime = some t ∧
        getTotalUptime s now = sumDurations s.timeHistory + (now - t)) ∧
    (s.status ≠ .running →
        getTotalUptime s now = sumDurations s.timeHistory) := by
  constructor
  · intro hr
    obtain ⟨t, ht⟩ := sreachable_startTime h hr
    exact ⟨t, ht, by simp [getTotalUptime, ht, hr]⟩
  · intro hr
    unfold getTotalUptime
    cases hst : s.startTime <;> simp [hst, hr]

theorem claim8_witness :
    SReachable (startService (Service.mk0 "a" 0) 1 (.ok ())) ∧
    (∃ t, (startService (Service.mk0 "a" 0) 1 (.ok ())).startTime = some t ∧
      getTotalUptime (startService (Service.mk0 "a" 0) 1 (.ok ())) 5 =
        sumDurations (startService (Service.mk0 "a" 0) 1
          (.ok ())).timeHistory + (5 - t)) :=
  ⟨SReachable.start (SReachable.init "a" 0) 1 (.ok ()),
   (claim8_amended (SReachable.start (SReachable.init "a" 0) 1 (.ok ())) 5).1
     (by decide)⟩

/-- Claim C9: for any Service state and any single instant now,
getDowntime plus getTotalUptime equals getTotalTime, because getDowntime
is computed as that very difference. -/
theorem claim9_time_identity (s : ServiceState) (now : Int) :
    getDowntime s now + getTotalUptime s now = getTotalTime s now := by
  unfold getDowntime; ring

/-- Claim C10: on every reachable Service state, RUNNING implies a
recorded startTime, so the non-null assertion in the history push of
stopService (reached only from RUNNING) always reads an actual start
instant t, and the pushed interval is exactly (t, now). -/
theorem claim10_running_startTime {s : ServiceState} (h : SReachable s)
    (hr : s.status = .running) :
    ∃ t, s.startTime = some t ∧ ∀ now : Int,
      (stopService s now (.ok ())).timeHistory = s.timeHistory ++ [(t, now)] := by
  obtain ⟨t, ht⟩ := sreachable_startTime h hr
  refine ⟨t, ht, fun now => ?_⟩
  simp [stopService, stopServiceRun, hr, startTimeBang, ht]

theorem claim10_witness :
    ∃ t, (startService (Service.mk0 "a" 0) 1 (.ok ())).startTime = some t ∧
      ∀ now : Int,
        (stopService (startService (Service.mk0 "a" 0) 1 (.ok ())) now
            (.ok ())).timeHistory =
          (startService (Service.mk0 "a" 0) 1 (.ok ())).timeHistory ++ [(t, now)] :=
  claim10_running_startTime (SReachable.start (SReachable.init "a" 0) 1 (.ok ()))
    (by decide)

/-! ## The runner message handler (src/src/service-runner.js) -/

/-- The payload assembled by the getStatus branch of the runner message
handler (service-runner.js lines 66-72), using the metric getters of the
hosted Service instance at the current instant. -/
structure StatusPayload where
  name : String
  status : ServiceStatus
  uptime : Int
  downtime : Int
  timeSinceLoad : Int
deriving DecidableEq

/-- Payload construction from the hosted instance. -/
def statusPayloadOf (svc : ServiceState) (now : Int) : StatusPayload :=
  { name := svc.name, status := svc.status,
    uptime := getTotalUptime svc now, downtime := getDowntime svc now,
    timeSinceLoad := getTotalTime svc now }

/-- Messages the runner sends to the parent over the control channel
(log messages are routed the same way and are not modelled). -/
inductive OutMsg where
  | register (name : String)
  | statusResponse (id : Option String) (payload : StatusPayload)
deriving DecidableEq

/-- An incoming control-channel message as the handler sees it: a type
tag and an optional correlation id. -/
structure IpcMsg where
  type : String
  id : Option String
deriving DecidableEq

/-- The outcome of one activation of the runner message handler: the
possibly updated hosted instance, the messages sent back to the parent,
and the exit code when the handler called process.exit. -/
structure HandleResult where
  svc : ServiceState
  sent : List OutMsg
  exitCode : Option Nat
deriving DecidableEq

/-- The process.on message handler of the runner (service-runner.js
lines 51-77).  A message of type stop invokes stopService (any exception
is caught and logged) and then calls process.exit(0) unconditionally; a
message of type getStatus sends back a statusResponse echoing the
request id; every other type, including shutdown and exit, falls through
both branches with no effect.  The instant now and the stop hook outcome
parameterise the call. -/
def handleMessage (svc : ServiceState) (now : Int)
    (stopHook : Except String Unit) (msg : IpcMsg) : HandleResult :=
  if msg.type = "stop" then
    { svc := stopService svc now stopHook, sent := [], exitCode := some 0 }
  else if msg.type = "getStatus" then
    { svc := svc, sent := [.statusResponse msg.id (statusPayloadOf svc now)],
      exitCode := none }
  else
    { svc := svc, sent := [], exitCode := none }

/-- Claim C1 fails as stated: handling a stop message makes the runner
process exit (the handler calls process.exit(0) right after the
stopService attempt), so stop terminates rather than pauses. -/
theorem claim1_counterexample :
    (handleMessage (Service.mk0 "svc" 0) 1 (.ok ())
        { type := "stop", id := none }).exitCode = some 0 := by decide

/-- Claim C1, amended: on every stop message the runner invokes
stopService on the hosted service and then exits the process with code 0
(a termination, not a pause); no statusResponse or register message is
sent on this path. -/
theorem claim1_amended (svc : ServiceState) (now : Int)
    (stopHook : Except String Unit) (id : Option String) :
    handleMessage svc now stopHook { type := "stop", id := id } =
      { svc := stopService svc now stopHook, sent := [], exitCode := some 0 } := by
  simp [handleMessage]

/-- Claim C6: the runner message handler has no branch for shutdown or
exit messages; both leave the hosted service untouched, send nothing and
do not exit the process, although MicroServiceManager.removeService
sends a shutdown message expecting the child to stop and then exit. -/
theorem claim6_shutdown_ignored :
    handleMessage (Service.mk0 "svc" 0) 1 (.ok ())
        { type := "shutdown", id := none } =
      { svc := Service.mk0 "svc" 0, sent := [], exitCode := none } ∧
    handleMessage (Service.mk0 "svc" 0) 1 (.ok ())
        { type := "exit", id := none } =
      { svc := Service.mk0 "svc" 0, sent := [], exitCode := none } := by decide

/-! ## The request correlator
(MicroServiceManager.getServiceStatus lines 262-298 and the
statusResponse branch of the child message listener, lines 446-451) -/

/-- The correlator state: the ids with a registered pending resolver
(the keys of the pendingRequests map, in insertion order) and the log of
settled status calls, some payload for a resolution and none for a
timeout rejection. -/
structure Correlator where
  pending : List String
  settled : List (String × Option StatusPayload)
deriving DecidableEq

/-- getServiceStatus, send path (lines 277-284): a new id is recorded in
pendingRequests before getStatus is sent to the child. -/
def Correlator.request (c : Correlator) (id : String) : Correlator :=
  { c with pending := c.pending ++ [id] }

/-- The statusResponse branch of the message listener (lines 446-451)
combined with the resolver body it invokes (lines 278-281): when a
resolver is registered for the id it deletes the pending entry and
resolves the promise with the payload; otherwise nothing happens. -/
def Correlator.onStatusResponse (c : Correlator) (id : String)
    (p : StatusPayload) : Correlator :=
  if id ∈ c.pending then
    { pending := c.pending.erase id, settled := c.settled ++ [(id, some p)] }
  else c

/-- The timeout callback (lines 291-296): when the id is still pending
it is deleted and the promise rejected with a timeout error, modelled as
settling with none; when the id is gone the callback does nothing. -/
def Correlator.onTimeout (c : Correlator) (id : String) : Correlator :=
  if id ∈ c.pending then
    { pending := c.pending.erase id, settled := c.settled ++ [(id, none)] }
  else c

/-- The correlator events: registering a query, arrival of a
statusResponse, firing of a timeout. -/
inductive CEvent where
  | request (id : String)
  | response (id : String) (p : StatusPayload)
  | timeout (id : String)
deriving DecidableEq

def cstep (c : Correlator) : CEvent → Correlator
  | .request id => c.request id
  | .response id p => c.onStatusResponse id p
  | .timeout id => c.onTimeout id

def crun (c : Correlator) : List CEvent → Correlator
  | [] => c
  | ev :: rest => crun (cstep c ev) rest

/-- The id generator of getServiceStatus produces fresh ids; an event
list is admissible when each request event carries an id neither pending
nor already settled at that point. -/
def freshOk (c : Correlator) : CEvent → Bool
  | .request id => decide (id ∉ c.pending) &&
      decide (id ∉ c.settled.map Prod.fst)
  | _ => true

def evsOk (c : Correlator) : List CEvent → Bool
  | [] => true
  | ev :: rest => freshOk c ev && evsOk (cstep c ev) rest

/-- Well-formedness of a correlator state: pending ids are distinct,
settled ids are distinct, and no id is both pending and settled. -/
def CWF (c : Correlator) : Prop :=
  c.pending.Nodup ∧ (c.settled.map Prod.fst).Nodup ∧
    ∀ id ∈ c.pending, id ∉ c.settled.map Prod.fst

instance (c : Correlator) : Decidable (CWF c) := by
  unfold CWF; exact inferInstance

lemma cwf_step {c : Correlator} (h : CWF c) {ev : CEvent}
    (hf : freshOk c ev = true) : CWF (cstep c ev) := by
  obtain ⟨h1, h2, h3⟩ := h
  cases ev with
  | request id =>
      simp only [freshOk, Bool.and_eq_true, decide_eq_true_eq] at hf
      simp only [cstep, Correlator.request]
      refine ⟨?_, h2, ?_⟩
      · rw [List.nodup_append]
        refine ⟨h1, List.nodup_singleton id, ?_⟩
        intro a ha hb
        have hab : a = id := by simpa using hb
        subst hab
        exact hf.1 ha
      · intro x hx
        rcases List.mem_append.mp hx with hx | hx
        · exact h3 x hx
        · have hxi : x = id := by simpa using hx
          subst hxi
          exact hf.2
  | response id p =>
      by_cases hm : id ∈ c.pending
      · simp only [cstep, Correlator.onStatusResponse, if_pos hm]
        refine ⟨h1.erase id, ?_, ?_⟩
        · rw [List.map_append, List.nodup_append]
          refine ⟨h2, by simp, ?_⟩
          intro a ha hb
          have hab : a = id := by simpa using hb
          subst hab
          exact h3 a hm ha
        · intro x hx
          have hx0 : x ∈ c.pending := List.mem_of_mem_erase hx
          have hxid : x ≠ id := ((List.Nodup.mem_erase_iff h1).mp hx).1
          rw [List.map_append]
          intro hmem
          rcases List.mem_append.mp hmem with hmem | hmem
          · exact h3 x hx0 hmem
          · exact hxid (by simpa using hmem)
      · simp only [cstep, Correlator.onStatusResponse, if_neg hm]
        exact ⟨h1, h2, h3⟩
  | timeout id =>
      by_cases hm : id ∈ c.pending
      · simp only [cstep, Correlator.onTimeout, if_pos hm]
        refine ⟨h1.erase id, ?_, ?_⟩
        · rw [List.map_append, List.nodup_append]
          refine ⟨h2, by simp, ?_⟩
          intro a ha hb
          have hab : a = id := by simpa using hb
          subst hab
          exact h3 a hm ha
        · intro x hx
          have hx0 : x ∈ c.pending := List.mem_of_mem_erase hx
          have hxid : x ≠ id := ((List.Nodup.mem_erase_iff h1).mp hx).1
          rw [List.map_append]
          intro hmem
          rcases List.mem_append.mp hmem with hmem | hmem
          · exact h3 x hx0 hmem
          · exact hxid (by simpa using hmem)
      · simp only [cstep, Correlator.onTimeout, if_neg hm]
        exact ⟨h1, h2, h3⟩

lemma cwf_run {c : Correlator} (h : CWF c) {evs : List CEvent}
    (he : evsOk c evs = true) : CWF (crun c evs) := by
  induction evs generalizing c with
  | nil => exact h
  | cons ev rest ih =>
      simp only [evsOk, Bool.and_eq_true] at he
      exact ih (cwf_step h he.1) he.2

/-- Claim C3: in a well-formed correlator state, a statusResponse whose
id is pending removes exactly that pending entry and settles the call
with the payload; a timeout firing while the id is pending removes the
entry and settles the call as a timeout; a statusResponse or timeout for
an id that is no longer pending changes nothing (a late reply is a
no-op); and over every admissible event sequence each id is settled at
most once. -/
theorem claim3_correlation {c : Correlator} (h : CWF c) (id : String)
    (p : StatusPayload) (evs : List CEvent) (he : evsOk c evs = true) :
    (id ∈ c.pending →
       (c.onStatusResponse id p).pending = c.pending.erase id ∧
       (c.onStatusResponse id p).settled = c.settled ++ [(id, some p)] ∧
       (c.onTimeout id).pending = c.pending.erase id ∧
       (c.onTimeout id).settled = c.settled ++ [(id, none)]) ∧
    (id ∉ c.pending →
       c.onStatusResponse id p = c ∧ c.onTimeout id = c) ∧
    ((crun c evs).settled.map Prod.fst).Nodup := by
  refine ⟨?_, ?_, (cwf_run h he).2.1⟩
  · intro hm
    simp [Correlator.onStatusResponse, Correlator.onTimeout, if_pos hm]
  · intro hm
    simp [Correlator.onStatusResponse, Correlator.onTimeout, if_neg hm]

theorem claim3_witness :
    CWF { pending := ["q1"], settled := [] } ∧
    (let c : Correlator := { pending := ["q1"], settled := [] }
     let p : StatusPayload :=
       { name := "svc", status := .running, uptime := 3,
         downtime := 0, timeSinceLoad := 3 }
     ("q1" ∈ c.pending →
        (c.onStatusResponse "q1" p).pending = c.pending.erase "q1" ∧
        (c.onStatusResponse "q1" p).settled = c.settled ++ [("q1", some p)] ∧
        (c.onTimeout "q1").pending = c.pending.erase "q1" ∧
        (c.onTimeout "q1").settled = c.settled ++ [("q1", none)]) ∧
     ("q1" ∉ c.pending →
        c.onStatusResponse "q1" p = c ∧ c.onTimeout "q1" = c) ∧
     ((crun c [.response "q1" p, .timeout "q1"]).settled.map Prod.fst).Nodup) :=
  ⟨by decide,
   claim3_correlation (by decide) "q1"
     { name := "svc", status := .running, uptime := 3,
       downtime := 0, timeSinceLoad := 3 }
     [.response "q1"
       { name := "svc", status := .running, uptime := 3,
         downtime := 0, timeSinceLoad := 3 }, .timeout "q1"]
     (by decide)⟩

/-! ## The supervisor registry (src/src/MicroServiceManager.ts)

The services map is modelled as an insertion-ordered association list
(JS Map iteration order).  Each entry record additionally carries a
ghost identity eid so that live child processes can be related to the
entry record they were forked for; live is the ghost set of forked
runner processes that have not yet exited (the OS fact the child
handles point into), and sent logs the child.send calls. -/

/-- One registry entry (MicroServiceManager.ts line 9). -/
structure Entry where
  path : String
  eid : Nat
  child : Option Nat
  startedAt : Option Int
  registeredName : Option String
deriving DecidableEq

/-- The supervisor state. -/
structure Mgr where
  services : List (String × Entry)
  live : List (Nat × Nat)
  sent : List (Nat × String)
  nextPid : Nat
  nextEid : Nat
  warnings : Nat
deriving DecidableEq

/-- A freshly constructed manager: empty registry, no children. -/
def Mgr.empty : Mgr :=
  { services := [], live := [], sent := [], nextPid := 0, nextEid := 0,
    warnings := 0 }

/-- Splitting a character list at slash or backslash, as the
split(/[\\\/]/) used on paths in loadService and findEntryKey. -/
def splitSeps : List Char → List Char → List (List Char)
  | [], acc => [acc.reverse]
  | ch :: rest, acc =>
      if ch = '/' ∨ ch = '\\' then acc.reverse :: splitSeps rest []
      else splitSeps rest (ch :: acc)

/-- The filename part of a path: the last separator-split component, or
the whole path when that component is empty, matching
(path.split(...).pop() || path). -/
def baseOf (p : String) : String :=
  let b := (splitSeps p.data []).getLastD []
  if b = [] then p else ⟨b⟩

/-- replace with the pattern of one trailing .js or .ts, ignoring case:
strips those three characters when present. -/
def stripExt (b : String) : String :=
  let low := b.data.map Char.toLower
  if ['.', 'j', 's'].isSuffixOf low || ['.', 't', 's'].isSuffixOf low then
    ⟨b.data.take (b.data.length - 3)⟩
  else b

/-- The registry key derived from a path in loadService (lines 252-253):
filename without extension. -/
def keyOf (p : String) : String := stripExt (baseOf p)

/-- The path.endsWith check of findEntryKey. -/
def strEndsWith (s suffix : String) : Bool := suffix.data.isSuffixOf s.data

/-- JS Map.get over the insertion-ordered association list. -/
def lookupKey : List (String × Entry) → String → Option Entry
  | [], _ => none
  | (k1, e1) :: rest, k => if k1 = k then some e1 else lookupKey rest k

/-- JS Map.set: replace the value in place when the key exists,
append a new pair otherwise. -/
def setKey : List (String × Entry) → String → Entry → List (String × Entry)
  | [], k, e => [(k, e)]
  | (k1, e1) :: rest, k, e =>
      if k1 = k then (k, e) :: rest else (k1, e1) :: setKey rest k e

/-- JS Map.delete. -/
def eraseKey : List (String × Entry) → String → List (String × Entry)
  | [], _ => []
  | (k1, e1) :: rest, k => if k1 = k then rest else (k1, e1) :: eraseKey rest k

/-- One iteration of the findEntryKey loop (lines 304-309): match on the
registered name, on a path suffix, or on the filename stem. -/
def entryMatches (name : String) (e : Entry) : Bool :=
  e.registeredName == some name || strEndsWith e.path name ||
    keyOf e.path == name

def findMatch (name : String) : List (String × Entry) → Option String
  | [] => none
  | (k1, e1) :: rest =>
      if entryMatches name e1 then some k1 else findMatch name rest

/-- findEntryKey (lines 300-311): the exact key first, then the first
entry matching by registered name, path suffix or stem. -/
def findEntryKey (m : Mgr) (name : String) : Option String :=
  if (lookupKey m.services name).isSome then some name
  else findMatch name m.services

/-- loadService (lines 244-256): register the path under its filename
stem without instantiating anything (the existsSync guard concerns the
external filesystem and is modelled as passing).  A fresh eid is drawn
for the new entry record. -/
def Mgr.loadService (m : Mgr) (p : String) : Mgr :=
  { m with
      services := setKey m.services (keyOf p)
        { path := p, eid := m.nextEid, child := none, startedAt := none,
          registeredName := none },
      nextEid := m.nextEid + 1 }

/-- startService (lines 352-477).  When the resolved entry has a live
child, a start message is forwarded to it and startedAt refreshed,
without forking; otherwise a fresh runner process is forked and recorded
in the entry and in the live set.  The runner-path existence check and
the src-to-dist remapping concern only the external filesystem and are
omitted. -/
def Mgr.startService (m : Mgr) (name : String) (now : Int) : Mgr :=
  match findEntryKey m name with
  | none => m
  | some k =>
    match lookupKey m.services k with
    | none => m
    | some e =>
      match e.child with
      | some c =>
          { m with sent := m.sent ++ [(c, "start")],
                   services := setKey m.services k
                     { e with startedAt := some now } }
      | none =>
          { m with
              services := setKey m.services k
                { e with child := some m.nextPid, startedAt := some now },
              live := m.live ++ [(m.nextPid, e.eid)],
              nextPid := m.nextPid + 1 }

/-- stopService (lines 492-522): send stop to a live child (the
grace-period kill only appears later as a childExit event); warn when
there is no live child. -/
def Mgr.stopService (m : Mgr) (name : String) : Mgr :=
  match findEntryKey m name with
  | none => m
  | some k =>
    match lookupKey m.services k with
    | none => m
    | some e =>
      match e.child with
      | some c => { m with sent := m.sent ++ [(c, "stop")] }
      | none => { m with warnings := m.warnings + 1 }

/-- removeService (lines 317-346): send shutdown to a live child, then
delete the registry entry unconditionally. -/
def Mgr.removeService (m : Mgr) (name : String) : Mgr :=
  match findEntryKey m name with
  | none => m
  | some k =>
    match lookupKey m.services k with
    | none => m
    | some e =>
      match e.child with
      | some c =>
          { m with sent := m.sent ++ [(c, "shutdown")],
                   services := eraseKey m.services k }
      | none => { m with services := eraseKey m.services k }

/-- The register branch of the child message listener (lines 429-443),
for the child forked under entryKey: when the real name is already a
registry key, warn and keep the original key; otherwise Map.set appends
the entry under realName, Map.delete removes the old key, and
registeredName is recorded on the shared entry record (the source
mutates the record after re-inserting it, so the stored entry carries
the name).  The source reads the entry through the closure captured at
fork time, which is the current entry at entryKey as long as that key
was not reloaded in between. -/
def Mgr.registerMsg (m : Mgr) (entryKey realName : String) : Mgr :=
  match lookupKey m.services entryKey with
  | none => m
  | some e =>
    if (lookupKey m.services realName).isSome then
      { m with warnings := m.warnings + 1 }
    else
      { m with
          services := eraseKey
            (setKey m.services realName
              { e with registeredName := some realName })
            entryKey }

/-- Clearing pass of the exit listener (lines 464-471): clear child and
startedAt on the first registry entry holding this child handle. -/
def clearChild : List (String × Entry) → Nat → List (String × Entry)
  | [], _ => []
  | (k, e) :: rest, pid =>
      if e.child = some pid then
        (k, { e with child := none, startedAt := none }) :: rest
      else (k, e) :: clearChild rest pid

/-- Removal of an exited process from the ghost live set. -/
def removePid : List (Nat × Nat) → Nat → List (Nat × Nat)
  | [], _ => []
  | (p, e) :: rest, pid =>
      if p = pid then removePid rest pid else (p, e) :: removePid rest pid

/-- A child process exits (of its own accord or killed): the OS fact is
removed from the live set and the exit listener (lines 455-472) clears
the matching entry. -/
def Mgr.childExit (m : Mgr) (pid : Nat) : Mgr :=
  { m with live := removePid m.live pid,
           services := clearChild m.services pid }

/-- The supervisor operations a trace can interleave. -/
inductive Op where
  | load (p : String)
  | start (name : String) (now : Int)
  | stop (name : String)
  | remove (name : String)
  | register (entryKey realName : String)
  | exit (pid : Nat)
deriving DecidableEq

def applyOp (m : Mgr) : Op → Mgr
  | .load p => m.loadService p
  | .start name now => m.startService name now
  | .stop name => m.stopService name
  | .remove name => m.removeService name
  | .register k n => m.registerMsg k n
  | .exit pid => m.childExit pid

/-- The manager state after a trace of operations from a fresh manager
(the supervisor is single-threaded, so every interleaving is a trace). -/
def runOps (ops : List Op) : Mgr := ops.foldl applyOp Mgr.empty

/-- The pids of live children forked for the entry record with the
given identity. -/
def liveFor : List (Nat × Nat) → Nat → List Nat
  | [], _ => []
  | (p, e) :: rest, eid =>
      if e = eid then p :: liveFor rest eid else liveFor rest eid

/-- The inductive invariant of the supervisor state: distinct keys,
distinct entry identities, distinct live pids, freshness of the pid and
eid counters, and accuracy of the child handles: an entry with
child = some c has exactly the live child c, an entry without a child
handle has no live child. -/
structure MgrInv (m : Mgr) : Prop where
  keysNodup : (m.services.map Prod.fst).Nodup
  eidsNodup : (m.services.map (fun kv => kv.2.eid)).Nodup
  pidsNodup : (m.live.map Prod.fst).Nodup
  pidBound : ∀ pe ∈ m.live, pe.1 < m.nextPid
  eidBound : ∀ kv ∈ m.services, kv.2.eid < m.nextEid
  liveEidBound : ∀ pe ∈ m.live, pe.2 < m.nextEid
  accurate : ∀ kv ∈ m.services,
    (∀ c, kv.2.child = some c → liveFor m.live kv.2.eid = [c]) ∧
    (kv.2.child = none → liveFor m.live kv.2.eid = [])

lemma lookupKey_mem {l : List (String × Entry)} {k : String} {e : Entry}
    (h : lookupKey l k = some e) : (k, e) ∈ l := by
  induction l with
  | nil => cases h
  | cons kv rest ih =>
      obtain ⟨k1, e1⟩ := kv
      simp only [lookupKey] at h
      by_cases hk : k1 = k
      · rw [if_pos hk] at h
        injection h with h2
        subst h2; subst hk
        exact List.mem_cons_self _ _
      · rw [if_neg hk] at h
        exact List.mem_cons_of_mem _ (ih h)

lemma lookupKey_eq_none {l : List (String × Entry)} {k : String} :
    lookupKey l k = none ↔ k ∉ l.map Prod.fst := by
  induction l with
  | nil => simp [lookupKey]
  | cons kv rest ih =>
      obtain ⟨k1, e1⟩ := kv
      by_cases hk : k1 = k
      · simp [lookupKey, hk]
      · simp [lookupKey, hk, ih, Ne.symm hk]

lemma keys_setKey_present {l : List (String × Entry)} {k : String} {e0 : Entry}
    (e : Entry) (h : lookupKey l k = some e0) :
    (setKey l k e).map Prod.fst = l.map Prod.fst := by
  induction l with
  | nil => cases h
  | cons kv rest ih =>
      obtain ⟨k1, e1⟩ := kv
      by_cases hk : k1 = k
      · simp [setKey, hk]
      · simp only [lookupKey, if_neg hk] at h
        simp [setKey, hk, ih h]

lemma setKey_of_lookup_none {l : List (String × Entry)} {k : String} (e : Entry)
    (h : lookupKey l k = none) : setKey l k e = l ++ [(k, e)] := by
  induction l with
  | nil => simp [setKey]
  | cons kv rest ih =>
      obtain ⟨k1, e1⟩ := kv
      simp only [lookupKey] at h
      by_cases hk : k1 = k
      · rw [if_pos hk] at h; cases h
      · rw [if_neg hk] at h
        simp [setKey, hk, ih h]

lemma lookupKey_setKey_self (l : List (String × Entry)) (k : String) (e : Entry) :
    lookupKey (setKey l k e) k = some e := by
  induction l with
  | nil => simp [setKey, lookupKey]
  | cons kv rest ih =>
      obtain ⟨k1, e1⟩ := kv
      by_cases hk : k1 = k
      · simp [setKey, lookupKey, hk]
      · simp [setKey, lookupKey, hk, ih]

lemma lookupKey_setKey_other {l : List (String × Entry)} {k k2 : String}
    (e : Entry) (hne : k2 ≠ k) :
    lookupKey (setKey l k e) k2 = lookupKey l k2 := by
  induction l with
  | nil => simp [setKey, lookupKey, Ne.symm hne]
  | cons kv rest ih =>
      obtain ⟨k1, e1⟩ := kv
      by_cases hk : k1 = k
      · subst hk
        simp [setKey, lookupKey, Ne.symm hne]
      · by_cases hk2 : k1 = k2 <;> simp [setKey, lookupKey, hk, hk2, hne, ih]

lemma mem_setKey {l : List (String × Entry)} {k : String} {e : Entry}
    {kv : String × Entry} (h : kv ∈ setKey l k e) : kv = (k, e) ∨ kv ∈ l := by
  induction l with
  | nil => simpa [setKey] using h
  | cons kv1 rest ih =>
      obtain ⟨k1, e1⟩ := kv1
      by_cases hk : k1 = k
      · simp only [setKey, if_pos hk] at h
        rcases List.mem_cons.mp h with h | h
        · exact Or.inl h
        · exact Or.inr (List.mem_cons_of_mem _ h)
      · simp only [setKey, if_neg hk] at h
        rcases List.mem_cons.mp h with h | h
        · exact Or.inr (h ▸ List.mem_cons_self _ _)
        · rcases ih h with h2 | h2
          · exact Or.inl h2
          · exact Or.inr (List.mem_cons_of_mem _ h2)

lemma mem_setKey_nodup {l : List (String × Entry)} {k : String} {e : Entry}
    {kv : String × Entry} (hn : (l.map Prod.fst).Nodup)
    (h : kv ∈ setKey l k e) : kv = (k, e) ∨ (kv ∈ l ∧ kv.1 ≠ k) := by
  induction l with
  | nil => exact Or.inl (by simpa [setKey] using h)
  | cons kv1 rest ih =>
      obtain ⟨k1, e1⟩ := kv1
      simp only [List.map_cons, List.nodup_cons] at hn
      by_cases hk : k1 = k
      · subst hk
        simp only [setKey, if_pos rfl] at h
        rcases List.mem_cons.mp h with h | h
        · exact Or.inl h
        · refine Or.inr ⟨List.mem_cons_of_mem _ h, ?_⟩
          intro hkk
          exact hn.1 (hkk ▸ List.mem_map_of_mem Prod.fst h)
      · simp only [setKey, if_neg hk] at h
        rcases List.mem_cons.mp h with h | h
        · refine Or.inr ⟨h ▸ List.mem_cons_self _ _, ?_⟩
          rw [h]
          exact hk
        · rcases ih hn.2 h with h2 | h2
          · exact Or.inl h2
          · exact Or.inr ⟨List.mem_cons_of_mem _ h2.1, h2.2⟩

lemma keys_eraseKey_sublist (l : List (String × Entry)) (k : String) :
    ((eraseKey l k).map Prod.fst).Sublist (l.map Prod.fst) := by
  induction l with
  | nil => simp [eraseKey]
  | cons kv rest ih =>
      obtain ⟨k1, e1⟩ := kv
      by_cases hk : k1 = k
      · simp only [eraseKey, if_pos hk, List.map_cons]
        exact List.sublist_cons_self _ _
      · simp only [eraseKey, if_neg hk, List.map_cons]
        exact ih.cons₂ _

lemma eids_eraseKey_sublist (l : List (String × Entry)) (k : String) :
    ((eraseKey l k).map (fun kv => kv.2.eid)).Sublist
      (l.map (fun kv => kv.2.eid)) := by
  induction l with
  | nil => simp [eraseKey]
  | cons kv rest ih =>
      obtain ⟨k1, e1⟩ := kv
      by_cases hk : k1 = k
      · simp only [eraseKey, if_pos hk, List.map_cons]
        exact List.sublist_cons_self _ _
      · simp only [eraseKey, if_neg hk, List.map_cons]
        exact ih.cons₂ _

lemma mem_eraseKey {l : List (String × Entry)} {k : String}
    {kv : String × Entry} (h : kv ∈ eraseKey l k) : kv ∈ l := by
  induction l with
  | nil => simp [eraseKey] at h
  | cons kv1 rest ih =>
      obtain ⟨k1, e1⟩ := kv1
      by_cases hk : k1 = k
      · simp only [eraseKey, if_pos hk] at h
        exact List.mem_cons_of_mem _ h
      · simp only [eraseKey, if_neg hk] at h
        rcases List.mem_cons.mp h with h | h
        · exact h ▸ List.mem_cons_self _ _
        · exact List.mem_cons_of_mem _ (ih h)

lemma lookupKey_eraseKey_self {l : List (String × Entry)} {k : String}
    (hn : (l.map Prod.fst).Nodup) : lookupKey (eraseKey l k) k = none := by
  induction l with
  | nil => simp [eraseKey, lookupKey]
  | cons kv rest ih =>
      obtain ⟨k1, e1⟩ := kv
      simp only [List.map_cons, List.nodup_cons] at hn
      by_cases hk : k1 = k
      · subst hk
        simp only [eraseKey, if_pos rfl]
        rw [lookupKey_eq_none]
        exact hn.1
      · simp [eraseKey, lookupKey, hk, ih hn.2]

lemma lookupKey_eraseKey_other {l : List (String × Entry)} {k k2 : String}
    (hne : k2 ≠ k) : lookupKey (eraseKey l k) k2 = lookupKey l k2 := by
  induction l with
  | nil => simp [eraseKey]
  | cons kv rest ih =>
      obtain ⟨k1, e1⟩ := kv
      by_cases hk : k1 = k
      · subst hk
        simp [eraseKey, lookupKey, Ne.symm hne]
      · by_cases hk2 : k1 = k2 <;> simp [eraseKey, lookupKey, hk, hk2, hne, ih]

lemma eids_setKey_sameEid {l : List (String × Entry)} {k : String} {e0 : Entry}
    (e : Entry) (h : lookupKey l k = some e0) (he : e.eid = e0.eid) :
    (setKey l k e).map (fun kv => kv.2.eid) = l.map (fun kv => kv.2.eid) := by
  induction l with
  | nil => cases h
  | cons kv rest ih =>
      obtain ⟨k1, e1⟩ := kv
      by_cases hk : k1 = k
      · simp only [lookupKey, if_pos hk] at h
        injection h with h2
        subst h2
        simp [setKey, hk, he]
      · simp only [lookupKey, if_neg hk] at h
        simp [setKey, hk, ih h]

lemma eids_nodup_setKey_fresh {l : List (String × Entry)} {k : String} {e : Entry}
    (hn : (l.map (fun kv => kv.2.eid)).Nodup)
    (hf : ∀ kv ∈ l, kv.2.eid ≠ e.eid) :
    ((setKey l k e).map (fun kv => kv.2.eid)).Nodup := by
  induction l with
  | nil => simp [setKey]
  | cons kv1 rest ih =>
      obtain ⟨k1, e1⟩ := kv1
      simp only [List.map_cons, List.nodup_cons] at hn
      by_cases hk : k1 = k
      · simp only [setKey, if_pos hk, List.map_cons, List.nodup_cons]
        refine ⟨?_, hn.2⟩
        intro hmem
        rcases List.mem_map.mp hmem with ⟨kv2, hkv2, hkv2e⟩
        exact hf kv2 (List.mem_cons_of_mem _ hkv2) hkv2e
      · simp only [setKey, if_neg hk, List.map_cons, List.nodup_cons]
        refine ⟨?_, ih hn.2 (fun kv hkv => hf kv (List.mem_cons_of_mem _ hkv))⟩
        intro hmem
        rcases List.mem_map.mp hmem with ⟨kv2, hkv2, hkv2e⟩
        rcases mem_setKey hkv2 with h2 | h2
        · subst h2
          exact hf (k1, e1) (List.mem_cons_self _ _) hkv2e.symm
        · exact hn.1 (hkv2e ▸ List.mem_map_of_mem _ h2)

lemma eid_notin_eraseKey {l : List (String × Entry)} {k : String} {e : Entry}
    (heids : (l.map (fun kv => kv.2.eid)).Nodup)
    (h : lookupKey l k = some e) :
    e.eid ∉ (eraseKey l k).map (fun kv => kv.2.eid) := by
  induction l with
  | nil => cases h
  | cons kv rest ih =>
      obtain ⟨k1, e1⟩ := kv
      simp only [List.map_cons, List.nodup_cons] at heids
      by_cases hk : k1 = k
      · simp only [lookupKey, if_pos hk] at h
        injection h with h2
        subst h2
        simp only [eraseKey, if_pos hk]
        exact heids.1
      · simp only [lookupKey, if_neg hk] at h
        simp only [eraseKey, if_neg hk, List.map_cons, List.mem_cons]
        rintro (habs | habs)
        · have hmem : e.eid ∈ rest.map (fun kv => kv.2.eid) :=
            List.mem_map_of_mem _ (lookupKey_mem h)
          rw [habs] at hmem
          exact heids.1 hmem
        · exact ih heids.2 h habs

lemma liveFor_append (l : List (Nat × Nat)) (p eid0 eid : Nat) :
    liveFor (l ++ [(p, eid0)]) eid =
      liveFor l eid ++ (if eid0 = eid then [p] else []) := by
  induction l with
  | nil => by_cases h : eid0 = eid <;> simp [liveFor, h]
  | cons pe rest ih =>
      obtain ⟨p1, e1⟩ := pe
      by_cases h : e1 = eid <;> simp [liveFor, h, ih]

lemma liveFor_nil_of_ne {l : List (Nat × Nat)} {eid : Nat}
    (h : ∀ pe ∈ l, pe.2 ≠ eid) : liveFor l eid = [] := by
  induction l with
  | nil => rfl
  | cons pe rest ih =>
      obtain ⟨p1, e1⟩ := pe
      have h1 : e1 ≠ eid := h (p1, e1) (List.mem_cons_self _ _)
      simp only [liveFor, if_neg h1]
      exact ih (fun pe hpe => h pe (List.mem_cons_of_mem _ hpe))

lemma mem_liveFor {l : List (Nat × Nat)} {p eid : Nat} :
    p ∈ liveFor l eid ↔ (p, eid) ∈ l := by
  induction l with
  | nil => simp [liveFor]
  | cons pe rest ih =>
      obtain ⟨p1, e1⟩ := pe
      by_cases h : e1 = eid
      · subst h
        simp [liveFor, ih]
      · simp [liveFor, h, ih, Ne.symm h]

/-- Filtering one pid out of a pid list (the effect of a process exit on
one liveFor projection). -/
def removeNat : List Nat → Nat → List Nat
  | [], _ => []
  | p :: rest, pid =>
      if p = pid then removeNat rest pid else p :: removeNat rest pid

lemma liveFor_removePid (l : List (Nat × Nat)) (pid eid : Nat) :
    liveFor (removePid l pid) eid = removeNat (liveFor l eid) pid := by
  induction l with
  | nil => rfl
  | cons pe rest ih =>
      obtain ⟨p1, e1⟩ := pe
      by_cases hp : p1 = pid <;> by_cases he : e1 = eid <;>
        simp [removePid, liveFor, removeNat, hp, he, ih]

lemma mem_removePid {l : List (Nat × Nat)} {pid : Nat} {pe : Nat × Nat}
    (h : pe ∈ removePid l pid) : pe ∈ l := by
  induction l with
  | nil => simp [removePid] at h
  | cons pe1 rest ih =>
      obtain ⟨p1, e1⟩ := pe1
      by_cases hp : p1 = pid
      · simp only [removePid, if_pos hp] at h
        exact List.mem_cons_of_mem _ (ih h)
      · simp only [removePid, if_neg hp] at h
        rcases List.mem_cons.mp h with h | h
        · exact h ▸ List.mem_cons_self _ _
        · exact List.mem_cons_of_mem _ (ih h)

lemma pids_removePid_sublist (l : List (Nat × Nat)) (pid : Nat) :
    ((removePid l pid).map Prod.fst).Sublist (l.map Prod.fst) := by
  induction l with
  | nil => simp [removePid]
  | cons pe rest ih =>
      obtain ⟨p1, e1⟩ := pe
      by_cases hp : p1 = pid
      · simp only [removePid, if_pos hp, List.map_cons]
        exact ih.trans (List.sublist_cons_self _ _)
      · simp only [removePid, if_neg hp, List.map_cons]
        exact ih.cons₂ _

lemma keys_clearChild (l : List (String × Entry)) (pid : Nat) :
    (clearChild l pid).map Prod.fst = l.map Prod.fst := by
  induction l with
  | nil => rfl
  | cons kv rest ih =>
      obtain ⟨k1, e1⟩ := kv
      by_cases hc : e1.child = some pid <;> simp [clearChild, hc, ih]

lemma eids_clearChild (l : List (String × Entry)) (pid : Nat) :
    (clearChild l pid).map (fun kv => kv.2.eid) =
      l.map (fun kv => kv.2.eid) := by
  induction l with
  | nil => rfl
  | cons kv rest ih =>
      obtain ⟨k1, e1⟩ := kv
      by_cases hc : e1.child = some pid <;> simp [clearChild, hc, ih]

lemma mem_clearChild {l : List (String × Entry)} {pid : Nat}
    {kv : String × Entry} (h : kv ∈ clearChild l pid) :
    kv ∈ l ∨ ∃ kv0, kv0 ∈ l ∧ kv0.2.child = some pid ∧
      kv = (kv0.1, { kv0.2 with child := none, startedAt := none }) := by
  induction l with
  | nil => simp [clearChild] at h
  | cons kv1 rest ih =>
      obtain ⟨k1, e1⟩ := kv1
      by_cases hc : e1.child = some pid
      · simp only [clearChild, if_pos hc] at h
        rcases List.mem_cons.mp h with h | h
        · exact Or.inr ⟨(k1, e1), List.mem_cons_self _ _, hc, h⟩
        · exact Or.inl (List.mem_cons_of_mem _ h)
      · simp only [clearChild, if_neg hc] at h
        rcases List.mem_cons.mp h with h | h
        · exact Or.inl (h ▸ List.mem_cons_self _ _)
        · rcases ih h with h2 | ⟨kv0, hkv0, hkv0c, hkv0e⟩
          · exact Or.inl (List.mem_cons_of_mem _ h2)
          · exact Or.inr ⟨kv0, List.mem_cons_of_mem _ hkv0, hkv0c, hkv0e⟩

lemma child_unique {m : Mgr} (hInv : MgrInv m) {kv1 kv2 : String × Entry}
    (h1 : kv1 ∈ m.services) (h2 : kv2 ∈ m.services) {pid : Nat}
    (hc1 : kv1.2.child = some pid) (hc2 : kv2.2.child = some pid) :
    kv1 = kv2 := by
  have hl1 := (hInv.accurate kv1 h1).1 pid hc1
  have hl2 := (hInv.accurate kv2 h2).1 pid hc2
  have hm1 : (pid, kv1.2.eid) ∈ m.live := by
    rw [← mem_liveFor, hl1]
    exact List.mem_cons_self _ _
  have hm2 : (pid, kv2.2.eid) ∈ m.live := by
    rw [← mem_liveFor, hl2]
    exact List.mem_cons_self _ _
  have hpair := List.inj_on_of_nodup_map hInv.pidsNodup hm1 hm2 rfl
  have heq : kv1.2.eid = kv2.2.eid := congrArg Prod.snd hpair
  exact List.inj_on_of_nodup_map hInv.eidsNodup h1 h2 heq

lemma mgrInv_empty : MgrInv Mgr.empty := by
  refine ⟨?_, ?_, ?_, ?_, ?_, ?_, ?_⟩ <;> simp [Mgr.empty]

lemma mgrInv_of_eq {m m2 : Mgr} (h : MgrInv m) (hs : m2.services = m.services)
    (hl : m2.live = m.live) (hp : m2.nextPid = m.nextPid)
    (he : m2.nextEid = m.nextEid) : MgrInv m2 := by
  obtain ⟨hkeys, heids, hpids, hpidB, heidB, hliveB, hacc⟩ := h
  refine ⟨hs ▸ hkeys, hs ▸ heids, hl ▸ hpids, ?_, ?_, ?_, ?_⟩
  · rw [hl, hp]; exact hpidB
  · rw [hs, he]; exact heidB
  · rw [hl, he]; exact hliveB
  · rw [hs, hl]; exact hacc

lemma mgrInv_load {m : Mgr} (h : MgrInv m) (p : String) :
    MgrInv (m.loadService p) := by
  obtain ⟨hkeys, heids, hpids, hpidB, heidB, hliveB, hacc⟩ := h
  refine ⟨?_, ?_, hpids, hpidB, ?_, ?_, ?_⟩
  · show ((setKey m.services (keyOf p) _).map Prod.fst).Nodup
    cases hl : lookupKey m.services (keyOf p) with
    | some e0 => rw [keys_setKey_present _ hl]; exact hkeys
    | none =>
        rw [setKey_of_lookup_none _ hl, List.map_append, List.nodup_append]
        refine ⟨hkeys, by simp, ?_⟩
        intro a ha hb
        have hab : a = keyOf p := by simpa using hb
        subst hab
        exact (lookupKey_eq_none.mp hl) ha
  · show ((setKey m.services (keyOf p) _).map (fun kv => kv.2.eid)).Nodup
    refine eids_nodup_setKey_fresh heids ?_
    intro kv hkv habs
    have habs2 : kv.2.eid = m.nextEid := habs
    have := heidB kv hkv
    omega
  · intro kv hkv
    rcases mem_setKey hkv with h1 | h1
    · rw [h1]
      show m.nextEid < m.nextEid + 1
      omega
    · have := heidB kv h1
      show kv.2.eid < m.nextEid + 1
      omega
  · intro pe hpe
    have := hliveB pe hpe
    show pe.2 < m.nextEid + 1
    omega
  · intro kv hkv
    rcases mem_setKey hkv with h1 | h1
    · rw [h1]
      constructor
      · intro c hc
        exact absurd hc (by simp)
      · intro _
        refine liveFor_nil_of_ne ?_
        intro pe hpe habs
        have habs2 : pe.2 = m.nextEid := habs
        have := hliveB pe hpe
        omega
    · exact hacc kv h1

lemma mgrInv_stop {m : Mgr} (h : MgrInv m) (name : String) :
    MgrInv (m.stopService name) := by
  unfold Mgr.stopService
  cases hfind : findEntryKey m name with
  | none => exact h
  | some k =>
    dsimp only
    cases hlook : lookupKey m.services k with
    | none => exact h
    | some e =>
      dsimp only
      cases hchild : e.child with
      | some c => exact mgrInv_of_eq h rfl rfl rfl rfl
      | none => exact mgrInv_of_eq h rfl rfl rfl rfl

lemma mgrInv_eraseKey {m : Mgr} (h : MgrInv m) (k : String) :
    MgrInv { m with services := eraseKey m.services k } := by
  obtain ⟨hkeys, heids, hpids, hpidB, heidB, hliveB, hacc⟩ := h
  refine ⟨?_, ?_, hpids, hpidB, ?_, hliveB, ?_⟩
  · exact List.Nodup.sublist (keys_eraseKey_sublist m.services k) hkeys
  · exact List.Nodup.sublist (eids_eraseKey_sublist m.services k) heids
  · intro kv hkv
    exact heidB kv (mem_eraseKey hkv)
  · intro kv hkv
    exact hacc kv (mem_eraseKey hkv)

lemma mgrInv_remove {m : Mgr} (h : MgrInv m) (name : String) :
    MgrInv (m.removeService name) := by
  unfold Mgr.removeService
  cases hfind : findEntryKey m name with
  | none => exact h
  | some k =>
    dsimp only
    cases hlook : lookupKey m.services k with
    | none => exact h
    | some e =>
      dsimp only
      cases hchild : e.child with
      | some c => exact mgrInv_of_eq (mgrInv_eraseKey h k) rfl rfl rfl rfl
      | none => exact mgrInv_of_eq (mgrInv_eraseKey h k) rfl rfl rfl rfl

lemma eraseKey_append_left {l1 l2 : List (String × Entry)} {k : String}
    {e : Entry} (h : lookupKey l1 k = some e) :
    eraseKey (l1 ++ l2) k = eraseKey l1 k ++ l2 := by
  induction l1 with
  | nil => cases h
  | cons kv rest ih =>
      obtain ⟨k1, e1⟩ := kv
      by_cases hk : k1 = k
      · simp [eraseKey, hk]
      · simp only [lookupKey, if_neg hk] at h
        simp [eraseKey, hk, ih h]

lemma mgrInv_register {m : Mgr} (h : MgrInv m) (entryKey realName : String) :
    MgrInv (m.registerMsg entryKey realName) := by
  unfold Mgr.registerMsg
  cases hlook : lookupKey m.services entryKey with
  | none => exact h
  | some e =>
    dsimp only
    by_cases hreal : (lookupKey m.services realName).isSome
    · rw [if_pos hreal]
      exact mgrInv_of_eq h rfl rfl rfl rfl
    · rw [if_neg hreal]
      have hrn : lookupKey m.services realName = none := by
        cases hcase : lookupKey m.services realName with
        | none => rfl
        | some e2 => rw [hcase] at hreal; simp at hreal
      have hmem : (entryKey, e) ∈ m.services := lookupKey_mem hlook
      obtain ⟨hkeys, heids, hpids, hpidB, heidB, hliveB, hacc⟩ := h
      have hrw : eraseKey
          (setKey m.services realName { e with registeredName := some realName })
          entryKey =
          eraseKey m.services entryKey ++
            [(realName, { e with registeredName := some realName })] := by
        rw [setKey_of_lookup_none _ hrn]
        exact eraseKey_append_left hlook
      refine ⟨?_, ?_, hpids, hpidB, ?_, hliveB, ?_⟩
      · show ((eraseKey (setKey _ _ _) _).map Prod.fst).Nodup
        rw [hrw, List.map_append, List.nodup_append]
        refine ⟨List.Nodup.sublist (keys_eraseKey_sublist m.services entryKey)
          hkeys, by simp, ?_⟩
        intro a ha hb
        have hab : a = realName := by simpa using hb
        subst hab
        have ha2 : a ∈ m.services.map Prod.fst :=
          (keys_eraseKey_sublist m.services entryKey).mem ha
        exact (lookupKey_eq_none.mp hrn) ha2
      · show ((eraseKey (setKey _ _ _) _).map (fun kv => kv.2.eid)).Nodup
        rw [hrw, List.map_append, List.nodup_append]
        refine ⟨List.Nodup.sublist (eids_eraseKey_sublist m.services entryKey)
          heids, by simp, ?_⟩
        intro a ha hb
        have hab : a = e.eid := by simpa using hb
        subst hab
        exact eid_notin_eraseKey heids hlook ha
      · intro kv hkv
        rw [hrw] at hkv
        rcases List.mem_append.mp hkv with h1 | h1
        · exact heidB kv (mem_eraseKey h1)
        · have h2 : kv = (realName, { e with registeredName := some realName }) := by
            simpa using h1
          rw [h2]
          exact heidB (entryKey, e) hmem
      · intro kv hkv
        rw [hrw] at hkv
        rcases List.mem_append.mp hkv with h1 | h1
        · exact hacc kv (mem_eraseKey h1)
        · have h2 : kv = (realName, { e with registeredName := some realName }) := by
            simpa using h1
          rw [h2]
          exact hacc (entryKey, e) hmem

lemma mgrInv_start {m : Mgr} (h : MgrInv m) (name : String) (now : Int) :
    MgrInv (m.startService name now) := by
  unfold Mgr.startService
  cases hfind : findEntryKey m name with
  | none => exact h
  | some k =>
    dsimp only
    cases hlook : lookupKey m.services k with
    | none => exact h
    | some e =>
      dsimp only
      have hmem : (k, e) ∈ m.services := lookupKey_mem hlook
      cases hchild : e.child with
      | some c =>
        dsimp only
        obtain ⟨hkeys, heids, hpids, hpidB, heidB, hliveB, hacc⟩ := h
        refine ⟨?_, ?_, hpids, hpidB, ?_, hliveB, ?_⟩
        · show ((setKey m.services k _).map Prod.fst).Nodup
          rw [keys_setKey_present _ hlook]; exact hkeys
        · show ((setKey m.services k _).map (fun kv => kv.2.eid)).Nodup
          rw [eids_setKey_sameEid { e with child := some c, startedAt := some now }
            hlook rfl]
          exact heids
        · intro kv hkv
          rcases mem_setKey hkv with h1 | h1
          · rw [h1]; exact heidB (k, e) hmem
          · exact heidB kv h1
        · intro kv hkv
          rcases mem_setKey hkv with h1 | h1
          · rw [h1]
            constructor
            · intro c0 hc0
              have hc0b : some c = some c0 := hc0
              injection hc0b with hc0c
              subst hc0c
              exact (hacc (k, e) hmem).1 _ hchild
            · intro hc0
              have hc0b : some c = none := hc0
              cases hc0b
          · exact hacc kv h1
      | none =>
        dsimp only
        obtain ⟨hkeys, heids, hpids, hpidB, heidB, hliveB, hacc⟩ := h
        refine ⟨?_, ?_, ?_, ?_, ?_, ?_, ?_⟩
        · show ((setKey m.services k _).map Prod.fst).Nodup
          rw [keys_setKey_present _ hlook]; exact hkeys
        · show ((setKey m.services k _).map (fun kv => kv.2.eid)).Nodup
          rw [eids_setKey_sameEid
            { e with child := some m.nextPid, startedAt := some now } hlook rfl]
          exact heids
        · show ((m.live ++ [(m.nextPid, e.eid)]).map Prod.fst).Nodup
          rw [List.map_append, List.nodup_append]
          refine ⟨hpids, by simp, ?_⟩
          intro a ha hb
          have hab : a = m.nextPid := by simpa using hb
          subst hab
          rcases List.mem_map.mp ha with ⟨pe, hpe, hpee⟩
          have := hpidB pe hpe
          omega
        · intro pe hpe
          rcases List.mem_append.mp hpe with h1 | h1
          · have := hpidB pe h1
            show pe.1 < m.nextPid + 1
            omega
          · have hpe1 : pe = (m.nextPid, e.eid) := by simpa using h1
            rw [hpe1]
            show m.nextPid < m.nextPid + 1
            omega
        · intro kv hkv
          rcases mem_setKey hkv with h1 | h1
          · rw [h1]; exact heidB (k, e) hmem
          · exact heidB kv h1
        · intro pe hpe
          rcases List.mem_append.mp hpe with h1 | h1
          · exact hliveB pe h1
          · have hpe1 : pe = (m.nextPid, e.eid) := by simpa using h1
            rw [hpe1]
            exact heidB (k, e) hmem
        · intro kv hkv
          rcases mem_setKey_nodup hkeys hkv with h1 | ⟨h1, h1k⟩
          · rw [h1]
            constructor
            · intro c0 hc0
              have hc0b : some m.nextPid = some c0 := hc0
              injection hc0b with hc0c
              subst hc0c
              show liveFor (m.live ++ [(m.nextPid, e.eid)]) e.eid = [m.nextPid]
              rw [liveFor_append, (hacc (k, e) hmem).2 hchild]
              simp
            · intro hc0
              have hc0b : some m.nextPid = none := hc0
              cases hc0b
          · have hkvne : kv ≠ (k, e) := by
              intro habs
              rw [habs] at h1k
              exact h1k rfl
            have heidne : kv.2.eid ≠ e.eid := by
              intro habs
              exact hkvne (List.inj_on_of_nodup_map heids h1 hmem habs)
            constructor
            · intro c0 hc0
              show liveFor (m.live ++ [(m.nextPid, e.eid)]) kv.2.eid = [c0]
              rw [liveFor_append, if_neg (Ne.symm heidne), List.append_nil]
              exact (hacc kv h1).1 c0 hc0
            · intro hc0
              show liveFor (m.live ++ [(m.nextPid, e.eid)]) kv.2.eid = []
              rw [liveFor_append, if_neg (Ne.symm heidne), List.append_nil]
              exact (hacc kv h1).2 hc0

lemma clearChild_no_pid {l : List (String × Entry)} {pid : Nat}
    (hu : ∀ kv1 ∈ l, ∀ kv2 ∈ l, kv1.2.child = some pid →
      kv2.2.child = some pid → kv1 = kv2)
    (hkeys : (l.map Prod.fst).Nodup) :
    ∀ kv ∈ clearChild l pid, kv.2.child ≠ some pid := by
  induction l with
  | nil => intro kv hkv; simp [clearChild] at hkv
  | cons kv1 rest ih =>
      obtain ⟨k1, e1⟩ := kv1
      simp only [List.map_cons, List.nodup_cons] at hkeys
      by_cases hc : e1.child = some pid
      · simp only [clearChild, if_pos hc]
        intro kv hkv
        rcases List.mem_cons.mp hkv with h1 | h1
        · rw [h1]; simp
        · intro habs
          have heq := hu kv (List.mem_cons_of_mem _ h1) (k1, e1)
            (List.mem_cons_self _ _) habs hc
          rw [heq] at h1
          exact hkeys.1 (List.mem_map_of_mem Prod.fst h1)
      · simp only [clearChild, if_neg hc]
        intro kv hkv
        rcases List.mem_cons.mp hkv with h1 | h1
        · rw [h1]; exact hc
        · exact ih (fun a ha b hb => hu a (List.mem_cons_of_mem _ ha) b
            (List.mem_cons_of_mem _ hb)) hkeys.2 kv h1

lemma mgrInv_exit {m : Mgr} (h : MgrInv m) (pid : Nat) :
    MgrInv (m.childExit pid) := by
  have hu : ∀ kv1 ∈ m.services, ∀ kv2 ∈ m.services,
      kv1.2.child = some pid → kv2.2.child = some pid → kv1 = kv2 :=
    fun kv1 h1 kv2 h2 hc1 hc2 => child_unique h h1 h2 hc1 hc2
  refine ⟨?_, ?_, ?_, ?_, ?_, ?_, ?_⟩
  · show ((clearChild m.services pid).map Prod.fst).Nodup
    rw [keys_clearChild]; exact h.keysNodup
  · show ((clearChild m.services pid).map (fun kv => kv.2.eid)).Nodup
    rw [eids_clearChild]; exact h.eidsNodup
  · exact List.Nodup.sublist (pids_removePid_sublist m.live pid) h.pidsNodup
  · intro pe hpe
    exact h.pidBound pe (mem_removePid hpe)
  · intro kv hkv
    rcases mem_clearChild hkv with h1 | ⟨kv0, hkv0, _, hkve⟩
    · exact h.eidBound kv h1
    · rw [hkve]
      exact h.eidBound kv0 hkv0
  · intro pe hpe
    exact h.liveEidBound pe (mem_removePid hpe)
  · intro kv hkv
    have hcpid : kv.2.child ≠ some pid :=
      clearChild_no_pid hu h.keysNodup kv hkv
    constructor
    · intro c hc
      have hcne : c ≠ pid := by
        intro habs
        rw [habs] at hc
        exact hcpid hc
      rcases mem_clearChild hkv with h1 | ⟨kv0, hkv0, hc0, hkve⟩
      · have hold := (h.accurate kv h1).1 c hc
        show liveFor (removePid m.live pid) kv.2.eid = [c]
        rw [liveFor_removePid, hold]
        simp [removeNat, hcne]
      · rw [hkve] at hc
        have hc2 : (none : Option Nat) = some c := hc
        cases hc2
    · intro hc
      rcases mem_clearChild hkv with h1 | ⟨kv0, hkv0, hc0, hkve⟩
      · have hold := (h.accurate kv h1).2 hc
        show liveFor (removePid m.live pid) kv.2.eid = []
        rw [liveFor_removePid, hold]
        rfl
      · have hold := (h.accurate kv0 hkv0).1 pid hc0
        rw [hkve]
        show liveFor (removePid m.live pid) kv0.2.eid = []
        rw [liveFor_removePid, hold]
        simp [removeNat]

lemma mgrInv_applyOp {m : Mgr} (h : MgrInv m) (op : Op) :
    MgrInv (applyOp m op) := by
  cases op with
  | load p => exact mgrInv_load h p
  | start name now => exact mgrInv_start h name now
  | stop name => exact mgrInv_stop h name
  | remove name => exact mgrInv_remove h name
  | register k n => exact mgrInv_register h k n
  | exit pid => exact mgrInv_exit h pid

lemma mgrInv_foldl {m : Mgr} (h : MgrInv m) (ops : List Op) :
    MgrInv (ops.foldl applyOp m) := by
  induction ops generalizing m with
  | nil => exact h
  | cons op rest ih => exact ih (mgrInv_applyOp h op)

lemma mgrInv_runOps (ops : List Op) : MgrInv (runOps ops) :=
  mgrInv_foldl mgrInv_empty ops

/-- Claim C2: after every trace of supervisor operations, each registry
entry has at most one live forked child process; and when startService
resolves an entry that already holds a live child c, it only forwards a
start message to c — the live set and the pid counter are unchanged, so
no second process is forked for that entry. -/
theorem claim2_single_child (ops : List Op) (name k : String) (e : Entry)
    (c : Nat) (now : Int) :
    (∀ kv ∈ (runOps ops).services,
        (liveFor (runOps ops).live kv.2.eid).length ≤ 1) ∧
    (findEntryKey (runOps ops) name = some k →
      lookupKey (runOps ops).services k = some e →
      e.child = some c →
      ((runOps ops).startService name now).live = (runOps ops).live ∧
      ((runOps ops).startService name now).nextPid = (runOps ops).nextPid ∧
      ((runOps ops).startService name now).sent
        = (runOps ops).sent ++ [(c, "start")]) := by
  have hInv := mgrInv_runOps ops
  constructor
  · intro kv hkv
    rcases hInv.accurate kv hkv with ⟨hsome, hnone⟩
    cases hc : kv.2.child with
    | some c0 => rw [hsome c0 hc]; simp
    | none => rw [hnone hc]; simp
  · intro hfind hlook hchild
    unfold Mgr.startService
    simp [hfind, hlook, hchild]

/-- A concrete trace for the claim C2 witness: load one module, then
start it once (which forks child pid 0 for it). -/
def opsC2 : List Op := [.load "services/alpha.js", .start "alpha" 0]

/-- The registry entry reached by opsC2. -/
def entC2 : Entry :=
  { path := "services/alpha.js", eid := 0, child := some 0,
    startedAt := some 0, registeredName := none }

theorem claim2_witness :
    (∀ kv ∈ (runOps opsC2).services,
        (liveFor (runOps opsC2).live kv.2.eid).length ≤ 1) ∧
    (((runOps opsC2).startService "alpha" 5).live = (runOps opsC2).live ∧
     ((runOps opsC2).startService "alpha" 5).nextPid
        = (runOps opsC2).nextPid ∧
     ((runOps opsC2).startService "alpha" 5).sent
        = (runOps opsC2).sent ++ [(0, "start")]) :=
  ⟨(claim2_single_child opsC2 "alpha" "alpha" entC2 0 5).1,
   (claim2_single_child opsC2 "alpha" "alpha" entC2 0 5).2
     (by decide) (by decide) (by decide)⟩

/-- Claim C5: for a register message carrying realName, received for the
entry currently keyed entryKey: when no entry is keyed realName, the
entry is re-keyed to realName with registeredName recorded, the old key
resolves to nothing afterwards, and every other key is untouched; when
an entry keyed realName already exists, the registry is left entirely
unchanged (no entry is overwritten, the original key is retained) and a
warning is logged. -/
theorem claim5_register (m : Mgr) (entryKey realName : String) (e : Entry)
    (hl : lookupKey m.services entryKey = some e)
    (hn : (m.services.map Prod.fst).Nodup) :
    (lookupKey m.services realName = none →
       lookupKey (m.registerMsg entryKey realName).services realName
         = some { e with registeredName := some realName } ∧
       (entryKey ≠ realName →
         lookupKey (m.registerMsg entryKey realName).services entryKey
           = none) ∧
       (∀ k2, k2 ≠ entryKey → k2 ≠ realName →
         lookupKey (m.registerMsg entryKey realName).services k2
           = lookupKey m.services k2)) ∧
    ((lookupKey m.services realName).isSome →
       (m.registerMsg entryKey realName).services = m.services ∧
       (m.registerMsg entryKey realName).warnings = m.warnings + 1) := by
  constructor
  · intro hrn
    have hne : realName ≠ entryKey := by
      intro habs
      rw [habs, hl] at hrn
      cases hrn
    have hreal : ¬ (lookupKey m.services realName).isSome = true := by
      rw [hrn]; simp
    have hkeys2 : ((setKey m.services realName
        { e with registeredName := some realName }).map Prod.fst).Nodup := by
      rw [setKey_of_lookup_none _ hrn, List.map_append, List.nodup_append]
      refine ⟨hn, by simp, ?_⟩
      intro a ha hb
      have hab : a = realName := by simpa using hb
      subst hab
      exact (lookupKey_eq_none.mp hrn) ha
    unfold Mgr.registerMsg
    simp only [hl]
    rw [if_neg hreal]
    refine ⟨?_, ?_, ?_⟩
    · show lookupKey (eraseKey (setKey m.services realName
        { e with registeredName := some realName }) entryKey) realName = _
      rw [lookupKey_eraseKey_other hne, lookupKey_setKey_self]
    · intro hke
      show lookupKey (eraseKey (setKey m.services realName
        { e with registeredName := some realName }) entryKey) entryKey = none
      exact lookupKey_eraseKey_self hkeys2
    · intro k2 hk2e hk2r
      show lookupKey (eraseKey (setKey m.services realName
        { e with registeredName := some realName }) entryKey) k2 = _
      rw [lookupKey_eraseKey_other hk2e, lookupKey_setKey_other _ hk2r]
  · intro hreal
    unfold Mgr.registerMsg
    simp only [hl]
    rw [if_pos hreal]
    exact ⟨rfl, rfl⟩

/-- A concrete registry for the claim C5 witness: two loaded modules. -/
def mgrC5 : Mgr :=
  runOps [.load "services/alpha.js", .load "services/beta.js"]

theorem claim5_witness :
    (lookupKey ((mgrC5.registerMsg "alpha" "Alpha Service").services)
        "Alpha Service"
      = some { path := "services/alpha.js", eid := 0, child := none,
               startedAt := none, registeredName := some "Alpha Service" }) ∧
    ((mgrC5.registerMsg "beta" "alpha").services = mgrC5.services ∧
     (mgrC5.registerMsg "beta" "alpha").warnings = mgrC5.warnings + 1) :=
  ⟨((claim5_register mgrC5 "alpha" "Alpha Service"
      { path := "services/alpha.js", eid := 0, child := none,
        startedAt := none, registeredName := none }
      (by decide) (by decide)).1 (by decide)).1,
   (claim5_register mgrC5 "beta" "alpha"
      { path := "services/beta.js", eid := 1, child := none,
        startedAt := none, registeredName := none }
      (by decide) (by decide)).2 (by decide)⟩

end MSM
